import Mathlib

/-!
Verification of the symbol fuzzy matcher (`src/static/pid_symbols.js`) and the
graph renderer / layout persister (`src/static/graph_viewer.js`) of the `ai-pid`
repository.  Strings are embedded as `List Char`; the ASCII character classes of
the source's regular expressions (`[a-z]`, `[A-Z]`, `[0-9]`, `\s`) are embedded
via code-point comparisons on `Char.toNat`.  Scores (IEEE doubles in the source)
are embedded as exact rationals.
-/

namespace AiPid

/-- Character class `[a-z]` of the source's regular expressions. -/
def jsIsLower (c : Char) : Bool := 97 ≤ c.toNat && c.toNat ≤ 122

/-- Character class `[A-Z]` of the source's regular expressions. -/
def jsIsUpper (c : Char) : Bool := 65 ≤ c.toNat && c.toNat ≤ 90

/-- Character class `[0-9]` of the source's regular expressions. -/
def jsIsDigit (c : Char) : Bool := 48 ≤ c.toNat && c.toNat ≤ 57

/-- ASCII lowering, the effect of `String.prototype.toLowerCase` on the ASCII
characters that survive the matcher's `[^a-z0-9]` cleaning step. -/
def jsToLower (c : Char) : Char :=
  if jsIsUpper c then Char.ofNat (c.toNat + 32) else c

/-- Character class `[a-z0-9]` used by `normalizeName`'s cleaning regex
(applied after lower-casing). -/
def isLowerAlnum (c : Char) : Bool := jsIsLower c || jsIsDigit c

/-- Embedding of `name.replace(/([a-z])([A-Z])/g, '$1 $2')`: insert a space
between a lower-case character immediately followed by an upper-case one. -/
def camelSplit : List Char → List Char
  | [] => []
  | [c] => [c]
  | a :: b :: rest =>
    if jsIsLower a && jsIsUpper b then a :: ' ' :: camelSplit (b :: rest)
    else a :: camelSplit (b :: rest)

/-- Helper for `collapseNonAlnum`: `inRun` records whether the previous
character was part of a non-alphanumeric run that already emitted a space. -/
def collapseAux : Bool → List Char → List Char
  | _, [] => []
  | inRun, c :: rest =>
    if isLowerAlnum c then c :: collapseAux false rest
    else if inRun then collapseAux true rest
    else ' ' :: collapseAux true rest

/-- Embedding of `.replace(/[^a-z0-9]+/g, ' ')`: every maximal run of
non-alphanumeric characters becomes a single space. -/
def collapseNonAlnum (l : List Char) : List Char := collapseAux false l

/-- Embedding of `String.prototype.split(sep)` for a single-character
separator: chunks between occurrences, empty chunks included. -/
def splitCh (sep : Char) : List Char → List (List Char)
  | [] => [[]]
  | c :: rest =>
    if c = sep then [] :: splitCh sep rest
    else
      match splitCh sep rest with
      | [] => [[c]]
      | t :: ts => (c :: t) :: ts

/-- Embedding of `Array.prototype.join(sep)` for a single-character
separator. -/
def joinCh (sep : Char) : List (List Char) → List Char
  | [] => []
  | [t] => t
  | t :: ts => t ++ sep :: joinCh sep ts

/-- The fixed stopword set `STOPWORDS` of `pid_symbols.js`. -/
def STOPWORDS : List (List Char) :=
  ["the".data, "a".data, "an".data, "of".data, "and".data, "unit".data,
   "system".data, "station".data, "main".data, "aux".data, "spare".data,
   "area".data, "section".data, "line".data]

/-- Embedding of `normalizeName` from `pid_symbols.js`: camel-case split,
lower-case, collapse non-alphanumeric runs to spaces, drop empty and stopword
tokens, join the survivors with underscores. -/
def normalizeName (name : List Char) : List Char :=
  if name = [] then []
  else
    let spaced := camelSplit name
    let cleaned := collapseNonAlnum (spaced.map jsToLower)
    let tokens := (splitCh ' ' cleaned).filter
      (fun t => decide (t ≠ [] ∧ t ∉ STOPWORDS))
    joinCh '_' tokens

/-- The token list built inside `normalizeName` before the final join
(named here so that theorems can speak about it; `normalizeName` is
definitionally the join of this list). -/
def normTokens (name : List Char) : List (List Char) :=
  (splitCh ' ' (collapseNonAlnum ((camelSplit name).map jsToLower))).filter
    (fun t => decide (t ≠ [] ∧ t ∉ STOPWORDS))

/-- Embedding of `tokenize` from `pid_symbols.js`:
`sym.split('_').filter(Boolean)`. -/
def tokenize (sym : List Char) : List (List Char) :=
  (splitCh '_' sym).filter (fun t => decide (t ≠ []))

/-- One pass of the inner `for i` loop of `levenshteinDistance`: given the
previous matrix row (`prev`, starting at column `i - 1`) and the value just
computed to the left (`left`), produce the remaining cells of the current row.
Each cell is `min(left + 1, up + 1, diag + indicator)` as in the source. -/
def levRowAux (c2 : Char) : List Char → List Nat → Nat → List Nat
  | [], _, _ => []
  | _ :: _, [], _ => []
  | c1 :: s1, p0 :: prest, left =>
    let cur := min (left + 1)
      (min (prest.headD 0 + 1) (p0 + (if c1 = c2 then 0 else 1)))
    cur :: levRowAux c2 s1 prest cur

/-- One pass of the outer `for j` loop of `levenshteinDistance`: from
`(previous row, j - 1)` and the character `str2[j - 1]`, build `(row j, j)`.
`matrix[j][0] = j` as in the source's first-column initialisation. -/
def levStep (s1 : List Char) (acc : List Nat × Nat) (c2 : Char) :
    List Nat × Nat :=
  ((acc.2 + 1) :: levRowAux c2 s1 acc.1 (acc.2 + 1), acc.2 + 1)

/-- Embedding of `levenshteinDistance` from `pid_symbols.js`: inputs longer
than 1000 characters short-circuit to the maximum length; otherwise the full
dynamic-programming matrix is computed row by row (row 0 is `0..len1`) and the
answer is `matrix[len2][len1]`. -/
def levenshteinDistance (s1 s2 : List Char) : Nat :=
  if s1.length > 1000 ∨ s2.length > 1000 then max s1.length s2.length
  else
    ((s2.foldl (levStep s1) (List.range (s1.length + 1), 0)).1).getD
      s1.length 0

/-- The cell recurrence of the source's matrix, row by row: `levRowD`
computes cell `i` of row `j` (passed as the current row index) from the
previous row viewed as a function.  Used to reason about the fold. -/
def levRowD (s1 : List Char) (c2 : Char) (prev : Nat → Nat) (j : Nat) :
    Nat → Nat
  | 0 => j
  | i + 1 =>
    min (levRowD s1 c2 prev j i + 1)
      (min (prev (i + 1) + 1)
        (prev i + (if s1.getD i ' ' = c2 then 0 else 1)))

/-- `levD s1 s2 j i` is cell `matrix[j][i]` of the source's
dynamic-programming matrix, written as a recurrence. -/
def levD (s1 s2 : List Char) : Nat → Nat → Nat
  | 0 => fun i => i
  | j + 1 => levRowD s1 (s2.getD j ' ') (levD s1 s2 j) (j + 1)

/-- Embedding of `calculateSimilarity` from `pid_symbols.js`: the blended
score `0.65 * tokenScore + 0.35 * editScore`, with the source's IEEE doubles
embedded as exact rationals. -/
def calculateSimilarity (s1 s2 : List Char) : ℚ :=
  let maxLen := max s1.length s2.length
  let editScore : ℚ :=
    if maxLen = 0 then 1 else 1 - (levenshteinDistance s1 s2 : ℚ) / maxLen
  let t1 := tokenize s1
  let t2 := tokenize s2
  let tokenHits := (t1.filter (fun t => decide (t ∈ t2))).length
  let tokenScore : ℚ := if t1.length = 0 then 0 else (tokenHits : ℚ) / t1.length
  65 / 100 * tokenScore + 35 / 100 * editScore

/-- The fixed `SYNONYM_MAP` of `pid_symbols.js`, in source order. -/
def SYNONYM_MAP : List (List Char × List Char) :=
  [("ball_valve".data, "valve".data),
   ("gate_valve".data, "gate_valve".data),
   ("globe_valve".data, "valve".data),
   ("check_valve".data, "check_valve".data),
   ("control_valve".data, "control_valve".data),
   ("pressure_gauge".data, "pressure_indicator".data),
   ("pressure_indicator".data, "pressure_indicator".data),
   ("temperature_indicator".data, "temperature_indicator".data),
   ("temperature_control".data, "temperature_control".data),
   ("flow_indicator".data, "flow_indicator".data),
   ("flow_control".data, "flow_control".data),
   ("level_indicator".data, "level_indicator".data),
   ("level_control".data, "level_control".data),
   ("heat_exchanger".data, "heat_exchanger".data),
   ("condenser".data, "heat_exchanger".data),
   ("reboiler".data, "heat_exchanger".data),
   ("evaporator".data, "heat_exchanger".data),
   ("compressor".data, "compressor".data),
   ("blower".data, "compressor".data),
   ("pump".data, "pump".data),
   ("meter".data, "meter".data),
   ("sensor".data, "sensor".data),
   ("reactor".data, "reactor".data),
   ("vessel".data, "vessel".data),
   ("drum".data, "vessel".data),
   ("column".data, "vessel".data),
   ("knockout".data, "separator".data),
   ("separator".data, "separator".data),
   ("tank".data, "tank".data),
   ("filter".data, "filter".data),
   ("strainer".data, "filter".data),
   ("controller".data, "controller".data)]

/-- Embedding of the object-property lookup `SYNONYM_MAP[normalized]`. -/
def synonymLookup (k : List Char) : Option (List Char) :=
  (SYNONYM_MAP.find? (fun p => decide (p.1 = k))).map (·.2)

/-- Embedding of `scores.sort((a, b) => b.score - a.score)` followed by
`scores[0]`: the stable descending sort makes the head the first entry
attaining the maximal score, so replace only on a strictly greater score. -/
def bestOf : List (List Char × ℚ) → Option (List Char × ℚ)
  | [] => none
  | x :: xs => some (xs.foldl (fun b y => if y.2 > b.2 then y else b) x)

/-- The scoring tail of `findBestSymbol`: score every catalog name, take the
best, and accept it only when its score is at least `0.4`. -/
def scoreStep (names : List (List Char)) (normalized : List Char) :
    Option (List Char) :=
  match bestOf (names.map (fun n => (n, calculateSimilarity normalized n))) with
  | some b => if b.2 ≥ 2 / 5 then some b.1 else none
  | none => none

/-- Embedding of `findBestSymbol` from `pid_symbols.js`, parametrised by the
loaded catalog names (the module-level `SYMBOL_NAMES`). -/
def findBestSymbol (names : List (List Char)) (nodeName : List Char) :
    Option (List Char) :=
  if names = [] then none
  else
    let normalized := normalizeName nodeName
    if normalized = [] then none
    else if normalized.length > 500 then none
    else if normalized ∈ names then some normalized
    else
      match synonymLookup normalized with
      | some syn => if syn ∈ names then some syn else scoreStep names normalized
      | none => scoreStep names normalized

/-! ### Catalog load (`loadSymbols` in `pid_symbols.js`)

`loadSymbols` is asynchronous: it reads the guard flag `SYMBOLS_LOADED`,
issues the fetch, awaits it, and only then (on a success payload) assigns
`ALL_SYMBOLS`, `SYMBOL_NAMES` and `SYMBOLS_LOADED`.  The embedding passes the
module-level state explicitly and represents one fetch outcome as a value. -/

/-- One element of the `data.symbols` payload: a plain string, or an object
whose `name` property may be absent (or empty, which is falsy in the
source). -/
inductive SymInput where
  | sstr (s : List Char)
  | sobj (name : Option (List Char))
deriving DecidableEq

/-- The module-level state of `pid_symbols.js`:
`ALL_SYMBOLS`, `SYMBOL_NAMES`, `SYMBOLS_LOADED`. -/
structure CatalogState where
  allSymbols : List SymInput
  symbolNames : List (List Char)
  loaded : Bool
deriving DecidableEq

/-- The initial module state: both lists empty, guard flag false. -/
def initialCatalog : CatalogState := ⟨[], [], false⟩

/-- Outcome of one `fetch('/api/symbols')` round trip: a thrown network or
parse error, a non-ok response, or a parsed payload with its `success` flag
and optional `symbols` list. -/
inductive FetchOutcome where
  | netError
  | httpError
  | payload (success : Bool) (symbols : Option (List SymInput))
deriving DecidableEq

/-- Whitespace class `\s` of the source's `replace(/\s+/g, '_')` (ASCII). -/
def jsIsSpace (c : Char) : Bool :=
  c = ' ' || c = '\t' || c = '\n' || c = '\r'

/-- Helper for `collapseWs`: same run-tracking as `collapseAux`. -/
def collapseWsAux : Bool → List Char → List Char
  | _, [] => []
  | inRun, c :: rest =>
    if jsIsSpace c then
      if inRun then collapseWsAux true rest
      else '_' :: collapseWsAux true rest
    else c :: collapseWsAux false rest

/-- Embedding of `sym.name.toLowerCase().replace(/\s+/g, '_')`. -/
def toSnake (n : List Char) : List Char :=
  collapseWsAux false (n.map jsToLower)

/-- Embedding of the per-entry arm of
`data.symbols.map(...)`: a string maps to itself, an object with a truthy
`name` to its snake-cased name, anything else to `null`. -/
def symName : SymInput → Option (List Char)
  | .sstr s => some s
  | .sobj (some n) => if n = [] then none else some (toSnake n)
  | .sobj none => none

/-- Embedding of `data.symbols.map(...).filter(Boolean)`. -/
def symbolNamesOf (l : List SymInput) : List (List Char) :=
  (l.filterMap symName).filter (fun s => decide (s ≠ []))

/-- The payload check `data.success && data.symbols`: returns the symbol list
when the payload is well-formed (`[]` is truthy in the source, so an empty
list passes). -/
def outcomeSuccess : FetchOutcome → Option (List SymInput)
  | .payload true (some l) => some l
  | _ => none

/-- Embedding of one complete run of `loadSymbols`: short-circuit on the
guard flag, otherwise replace the whole state on a success payload and leave
it untouched on any failure. -/
def loadSymbols (st : CatalogState) (o : FetchOutcome) : CatalogState :=
  if st.loaded then st
  else
    match outcomeSuccess o with
    | some l => ⟨l, symbolNamesOf l, true⟩
    | none => st

/-- Whether a call to `loadSymbols` entering at state `st` issues a network
fetch: the synchronous prefix of the function (everything before the first
`await`) only reads `SYMBOLS_LOADED` and, when it is clear, calls `fetch`.
No state assignment occurs before that first `await`. -/
def loadSymbolsIssuesFetch (st : CatalogState) : Bool := !st.loaded

/-- Total fetches issued by two concurrent `loadSymbols` calls where the
second enters before the first call's fetch has resolved: both synchronous
prefixes run against the same state `st`, because the first call writes
nothing before its first `await`. -/
def concurrentLoadFetches (st : CatalogState) : Nat :=
  (if loadSymbolsIssuesFetch st then 1 else 0) +
    (if loadSymbolsIssuesFetch st then 1 else 0)

/-! ### Graph viewer (`graph_viewer.js`) -/

/-- Node ids and image paths are strings. -/
abbrev NodeId := List Char

/-- A node position `{x, y}`; the source's IEEE doubles are embedded as
rationals. -/
abbrev Pt := ℚ × ℚ

/-- A caller-supplied node: a plain string id, or an object carrying an `id`
and optional `imageUrl` and `position` properties. -/
inductive NodeInput where
  | nstr (s : NodeId)
  | nobj (id : Option NodeId) (imageUrl : Option NodeId) (position : Option Pt)
deriving DecidableEq

/-- The id accepted by the node loop of `initGraphViewer`: a string is taken
as is; an object must have a truthy `id` (a missing or empty id is skipped
with a warning). -/
def nodeIdOf : NodeInput → Option NodeId
  | .nstr s => some s
  | .nobj oid _ _ =>
    match oid with
    | some i => if i = [] then none else some i
    | none => none

/-- The explicit position carried by a node object
(`nodeOrId.position || null`). -/
def nodePosOf : NodeInput → Option Pt
  | .nstr _ => none
  | .nobj _ _ p => p

/-- Association-list lookup, embedding `positionsMap[nodeId]` on the parsed
JSON object (keys are unique). -/
def lookupPos (m : List (NodeId × Pt)) (i : NodeId) : Option Pt :=
  (m.find? (fun e => decide (e.1 = i))).map (·.2)

/-- The node elements built by `initGraphViewer`: each accepted node id with
its resolved position - the explicit `position` on the node object if
present, else the persisted position from the store, else none (left to the
layout). -/
def buildNodeElements (positionsMap : List (NodeId × Pt))
    (nodes : List NodeInput) : List (NodeId × Option Pt) :=
  nodes.filterMap fun n =>
    (nodeIdOf n).map fun i =>
      (i, match nodePosOf n with
          | some p => some p
          | none => lookupPos positionsMap i)

/-- A caller-supplied edge: a pair (array) or an object with the accepted
alias keys `source`/`from`/`src`/`[0]` and `target`/`to`/`dst`/`[1]`. -/
inductive EdgeInput where
  | pair (a b : NodeId)
  | obj (source target from_ to_ src dst idx0 idx1 : Option NodeId)
deriving DecidableEq

/-- First truthy value of a chain of `||` alternatives (an empty string is
falsy). -/
def firstTruthy : List (Option NodeId) → Option NodeId
  | [] => none
  | o :: rest =>
    match o with
    | some s => if s = [] then firstTruthy rest else some s
    | none => firstTruthy rest

/-- The resolved source endpoint:
`edge.source || edge.from || edge.src || edge[0]`. -/
def edgeSourceOf : EdgeInput → Option NodeId
  | .pair a _ => firstTruthy [some a]
  | .obj s _ f _ sr _ i0 _ => firstTruthy [s, f, sr, i0]

/-- The resolved target endpoint:
`edge.target || edge.to || edge.dst || edge[1]`. -/
def edgeTargetOf : EdgeInput → Option NodeId
  | .pair _ b => firstTruthy [some b]
  | .obj _ t _ to_ _ d _ i1 => firstTruthy [t, to_, d, i1]

/-- The edge elements pushed by `initGraphViewer`: index-derived id plus the
two endpoints, kept only when both resolve to truthy values
(`if (source && target)`). -/
def cyEdgeElements (edges : List EdgeInput) : List (Nat × NodeId × NodeId) :=
  edges.enum.filterMap fun e =>
    match edgeSourceOf e.2, edgeTargetOf e.2 with
    | some s, some t => some (e.1, s, t)
    | _, _ => none

/-- Modelled from the spec: the third-party rendering library's element
admission (the `cytoscape(...)` constructor, which is not under `src/`)
silently drops an edge whose source or target does not reference an existing
node id - "both endpoints must reference existing node ids; edges with a
missing endpoint are dropped silently", with no error raised. -/
def admitEdges (nodeIds : List NodeId) (es : List (Nat × NodeId × NodeId)) :
    List (Nat × NodeId × NodeId) :=
  es.filter fun e => decide (e.2.1 ∈ nodeIds ∧ e.2.2 ∈ nodeIds)

/-- The rendered edge set of one `initGraphViewer` call: the edges the source
pushes, restricted by the library's admission to those whose endpoints are
supplied node ids. -/
def renderedEdges (nodes : List NodeInput) (edges : List EdgeInput) :
    List (Nat × NodeId × NodeId) :=
  admitEdges (nodes.filterMap nodeIdOf) (cyEdgeElements edges)

/-- The two layout configurations of `initGraphViewer`. -/
inductive LayoutChoice where
  | preset
  | dagre
deriving DecidableEq

/-- Embedding of
`hasSavedPositions = Object.keys(positionsMap).length > 0` and the layout
ternary: preset (no-op) layout whenever the persisted store is non-empty,
regardless of which ids it holds. -/
def layoutChoice (positionsMap : List (NodeId × Pt)) : LayoutChoice :=
  if positionsMap = [] then .dagre else .preset

/-- The grid size of the snap-to-grid handler. -/
def GRID_SIZE : ℚ := 40

/-- Embedding of `Math.round`: round half toward positive infinity. -/
def jsRound (q : ℚ) : ℤ := ⌊q + 1 / 2⌋

/-- One coordinate of `snapNodeToGrid`:
`Math.round(pos / GRID_SIZE) * GRID_SIZE`. -/
def snapCoord (q : ℚ) : ℚ := (jsRound (q / GRID_SIZE) : ℚ) * GRID_SIZE

/-- Embedding of `snapNodeToGrid`'s position update. -/
def snapPos (p : Pt) : Pt := (snapCoord p.1, snapCoord p.2)

/-- Embedding of the `dragfree` handler: snap the released node to the grid,
then `saveNodePositions` persists the current position of every node.  The
graph state is the id-to-position map of the live nodes; the returned map is
both the new graph state and the persisted store. -/
def onDragFree (st : List (NodeId × Pt)) (n : NodeId) : List (NodeId × Pt) :=
  st.map fun e => if e.1 = n then (e.1, snapPos e.2) else e

/-! ### The dynamic-programming matrix computes the `levD` recurrence -/

theorem levD_zero (s1 s2 : List Char) (i : Nat) : levD s1 s2 0 i = i := rfl

theorem levD_succ_zero (s1 s2 : List Char) (j : Nat) :
    levD s1 s2 (j + 1) 0 = j + 1 := rfl

theorem levD_succ_succ (s1 s2 : List Char) (j i : Nat) :
    levD s1 s2 (j + 1) (i + 1) =
      min (levD s1 s2 (j + 1) i + 1)
        (min (levD s1 s2 j (i + 1) + 1)
          (levD s1 s2 j i +
            (if s1.getD i ' ' = s2.getD j ' ' then 0 else 1))) := rfl

theorem levRowAux_cons (c2 c1 : Char) (s1 : List Char) (p0 : Nat)
    (prest : List Nat) (left : Nat) :
    levRowAux c2 (c1 :: s1) (p0 :: prest) left =
      min (left + 1)
          (min (prest.headD 0 + 1) (p0 + if c1 = c2 then 0 else 1)) ::
        levRowAux c2 s1 prest
          (min (left + 1)
            (min (prest.headD 0 + 1) (p0 + if c1 = c2 then 0 else 1))) := rfl

theorem levRowAux_spec (s1 s2 : List Char) (j : Nat) :
    ∀ (suf : List Char) (k : Nat), suf = s1.drop k →
      levRowAux (s2.getD j ' ') suf
          ((List.range' k (s1.length + 1 - k)).map (levD s1 s2 j))
          (levD s1 s2 (j + 1) k) =
        (List.range' (k + 1) (s1.length - k)).map (levD s1 s2 (j + 1)) := by
  intro suf
  induction suf with
  | nil =>
    intro k hk
    have hlen : s1.length ≤ k := List.drop_eq_nil_iff.mp hk.symm
    have h0 : s1.length - k = 0 := by omega
    rw [h0]
    simp [levRowAux]
  | cons c1 suf ih =>
    intro k hk
    have hget : s1[k]? = some c1 := by
      have h : (s1.drop k)[0]? = some c1 := by
        rw [← hk, List.getElem?_cons_zero]
      rwa [List.getElem?_drop, Nat.add_zero] at h
    have hklt : k < s1.length := by
      by_contra hcon
      rw [List.getElem?_eq_none (by omega)] at hget
      exact Option.noConfusion hget
    have hgetD : s1.getD k ' ' = c1 := by
      rw [List.getD_eq_getElem?_getD, hget]
      rfl
    have hsuf : suf = s1.drop (k + 1) := by
      have h1 := congrArg (List.drop 1) hk
      rw [List.drop_drop] at h1
      simpa [Nat.add_comm] using h1
    have hr1 : s1.length + 1 - k = (s1.length - k) + 1 := by omega
    have hr2 : s1.length - k = (s1.length - (k + 1)) + 1 := by omega
    have hr3 : s1.length + 1 - (k + 1) = s1.length - k := by omega
    have hhead :
        ((List.range' (k + 1) (s1.length - k)).map (levD s1 s2 j)).headD 0 =
          levD s1 s2 j (k + 1) := by
      rw [hr2, List.range'_succ]
      rfl
    have hcur :
        min (levD s1 s2 (j + 1) k + 1)
            (min (levD s1 s2 j (k + 1) + 1)
              (levD s1 s2 j k +
                if c1 = s2.getD j ' ' then 0 else 1)) =
          levD s1 s2 (j + 1) (k + 1) := by
      rw [levD_succ_succ, hgetD]
    have ih' := ih (k + 1) hsuf
    rw [hr3] at ih'
    rw [hr1, List.range'_succ, List.map_cons, levRowAux_cons, hhead, hcur,
      ih', hr2, List.range'_succ, List.map_cons]

theorem levFold_spec (s1 s2 : List Char) :
    ∀ (suf : List Char) (j : Nat), suf = s2.drop j →
      suf.foldl (levStep s1)
          ((List.range' 0 (s1.length + 1)).map (levD s1 s2 j), j) =
        ((List.range' 0 (s1.length + 1)).map (levD s1 s2 (j + suf.length)),
          j + suf.length) := by
  intro suf
  induction suf with
  | nil => intro j hj; simp
  | cons c2 suf ih =>
    intro j hj
    have hget : s2[j]? = some c2 := by
      have h : (s2.drop j)[0]? = some c2 := by
        rw [← hj, List.getElem?_cons_zero]
      rwa [List.getElem?_drop, Nat.add_zero] at h
    have hgetD : s2.getD j ' ' = c2 := by
      rw [List.getD_eq_getElem?_getD, hget]
      rfl
    have hsuf : suf = s2.drop (j + 1) := by
      have h1 := congrArg (List.drop 1) hj
      rw [List.drop_drop] at h1
      simpa [Nat.add_comm] using h1
    have hrow := levRowAux_spec s1 s2 j s1 0 rfl
    rw [Nat.sub_zero, Nat.sub_zero, hgetD, levD_succ_zero] at hrow
    have hstep :
        levStep s1 ((List.range' 0 (s1.length + 1)).map (levD s1 s2 j), j) c2 =
          ((List.range' 0 (s1.length + 1)).map (levD s1 s2 (j + 1)), j + 1) := by
      rw [levStep]
      refine Prod.ext ?_ rfl
      show (j + 1) :: levRowAux c2 s1
          ((List.range' 0 (s1.length + 1)).map (levD s1 s2 j)) (j + 1) =
        (List.range' 0 (s1.length + 1)).map (levD s1 s2 (j + 1))
      rw [hrow, List.range'_succ, List.map_cons, levD_succ_zero]
    rw [List.foldl_cons, hstep, ih (j + 1) hsuf]
    have harith : j + 1 + suf.length = j + (suf.length + 1) := by omega
    rw [harith]
    simp

theorem lev_eq_levD (s1 s2 : List Char) (h1 : s1.length ≤ 1000)
    (h2 : s2.length ≤ 1000) :
    levenshteinDistance s1 s2 = levD s1 s2 s2.length s1.length := by
  rw [levenshteinDistance, if_neg (by omega)]
  have hinit : List.range (s1.length + 1) =
      (List.range' 0 (s1.length + 1)).map (levD s1 s2 0) := by
    rw [List.range_eq_range']
    exact (List.map_id _).symm
  rw [hinit, levFold_spec s1 s2 s2 0 rfl, Nat.zero_add]
  rw [List.getD_eq_getElem?_getD, List.getElem?_map,
    List.getElem?_range' _ _ (by omega)]
  simp

theorem levD_self_diag (x : List Char) : ∀ n, levD x x n n = 0 := by
  intro n
  induction n with
  | zero => rfl
  | succ n ih => simp [levD_succ_succ, ih]

theorem levD_symm (s1 s2 : List Char) : ∀ j i, levD s1 s2 j i = levD s2 s1 i j := by
  intro j
  induction j with
  | zero =>
    intro i
    cases i with
    | zero => rfl
    | succ i => rfl
  | succ j ihj =>
    intro i
    induction i with
    | zero => rfl
    | succ i ihi =>
      rw [levD_succ_succ, levD_succ_succ, ihi, ihj (i + 1), ihj i]
      have hind : (if s1.getD i ' ' = s2.getD j ' ' then 0 else 1) =
          (if s2.getD j ' ' = s1.getD i ' ' then 0 else 1) := by
        by_cases h : s1.getD i ' ' = s2.getD j ' '
        · rw [if_pos h, if_pos h.symm]
        · rw [if_neg h, if_neg (fun hc => h hc.symm)]
      rw [hind, min_left_comm]

/-- C7 counterexample: for an input of length 1001 the safeguard branch of
`levenshteinDistance` returns the maximum length rather than computing the
edit distance, so the distance of such a string to itself is 1001, not 0. -/
theorem C7_self_distance_cex :
    levenshteinDistance (List.replicate 1001 'a') (List.replicate 1001 'a') ≠
      0 := by
  rw [levenshteinDistance,
    if_pos (Or.inl (by rw [List.length_replicate]; omega))]
  rw [List.length_replicate, Nat.max_self]
  omega

/-- C7 (amended): `levenshteinDistance "kitten" "sitting" = 3`; the distance
of a string to itself is 0 for every string of length at most 1000 (longer
inputs hit the safeguard and return their length); and the distance is
symmetric for all inputs. -/
theorem C7_levenshtein_properties :
    levenshteinDistance "kitten".data "sitting".data = 3 ∧
      (∀ x : List Char, x.length ≤ 1000 →
        levenshteinDistance x x = 0) ∧
      ∀ a b : List Char, levenshteinDistance a b = levenshteinDistance b a := by
  refine ⟨by decide, ?_, ?_⟩
  · intro x hx
    rw [lev_eq_levD x x hx hx, levD_self_diag]
  · intro a b
    by_cases h : a.length ≤ 1000 ∧ b.length ≤ 1000
    · rw [lev_eq_levD a b h.1 h.2, lev_eq_levD b a h.2 h.1, levD_symm]
    · have h' : a.length > 1000 ∨ b.length > 1000 := by omega
      rw [levenshteinDistance, if_pos h', levenshteinDistance,
        if_pos (Or.symm h'), Nat.max_comm]

theorem C7_levenshtein_properties_witness :
    levenshteinDistance "ab".data "ab".data = 0 ∧
      levenshteinDistance "ab".data "ba".data =
        levenshteinDistance "ba".data "ab".data :=
  ⟨C7_levenshtein_properties.2.1 "ab".data (by decide),
    C7_levenshtein_properties.2.2 "ab".data "ba".data⟩

/-! ### Idempotence of `normalizeName` -/

theorem normalizeName_eq (name : List Char) :
    normalizeName name =
      if name = [] then [] else joinCh '_' (normTokens name) := rfl

theorem isLowerAlnum_not_upper (c : Char) (h : isLowerAlnum c = true) :
    jsIsUpper c = false := by
  have h' : 97 ≤ c.toNat ∧ c.toNat ≤ 122 ∨ 48 ≤ c.toNat ∧ c.toNat ≤ 57 := by
    simpa [isLowerAlnum, jsIsLower, jsIsDigit] using h
  simp only [jsIsUpper]
  rcases h' with h' | h' <;> simp <;> omega

theorem camelSplit_eq_self : ∀ l : List Char,
    (∀ c ∈ l, jsIsUpper c = false) → camelSplit l = l := by
  intro l
  induction l with
  | nil => intro _; rfl
  | cons a rest ih =>
    intro h
    cases rest with
    | nil => rfl
    | cons b rest' =>
      have hb : jsIsUpper b = false := h b (by simp)
      show (if jsIsLower a && jsIsUpper b then
          a :: ' ' :: camelSplit (b :: rest')
        else a :: camelSplit (b :: rest')) = a :: b :: rest'
      rw [if_neg (by simp [hb]), ih (fun c hc => h c (List.mem_cons_of_mem a hc))]

theorem map_jsToLower_eq_self : ∀ l : List Char,
    (∀ c ∈ l, jsIsUpper c = false) → l.map jsToLower = l := by
  intro l
  induction l with
  | nil => intro _; rfl
  | cons a rest ih =>
    intro h
    have ha : jsToLower a = a := by
      rw [jsToLower, if_neg (by simp [h a (by simp)])]
    rw [List.map_cons, ha, ih (fun c hc => h c (List.mem_cons_of_mem a hc))]

theorem collapseAux_chars : ∀ (l : List Char) (b : Bool) (c : Char),
    c ∈ collapseAux b l → isLowerAlnum c = true ∨ c = ' ' := by
  intro l
  induction l with
  | nil => intro b c hc; simp [collapseAux] at hc
  | cons a rest ih =>
    intro b c hc
    rw [collapseAux] at hc
    by_cases ha : isLowerAlnum a = true
    · rw [if_pos ha] at hc
      rcases List.mem_cons.mp hc with h | h
      · left; rwa [h]
      · exact ih false c h
    · rw [if_neg ha] at hc
      by_cases hb : b = true
      · rw [if_pos hb] at hc
        exact ih true c hc
      · rw [if_neg hb] at hc
        rcases List.mem_cons.mp hc with h | h
        · right; exact h
        · exact ih true c h

theorem collapseAux_append_alnum : ∀ (t l : List Char) (b : Bool), t ≠ [] →
    (∀ c ∈ t, isLowerAlnum c = true) →
    collapseAux b (t ++ l) = t ++ collapseAux false l := by
  intro t
  induction t with
  | nil => intro l b h _; exact absurd rfl h
  | cons a t' ih =>
    intro l b _ h
    have ha : isLowerAlnum a = true := h a (by simp)
    rw [List.cons_append, collapseAux, if_pos ha]
    cases t' with
    | nil => rfl
    | cons d t'' =>
      rw [ih l false (by simp) (fun c hc => h c (List.mem_cons_of_mem a hc))]
      simp

theorem collapseAux_true_eq_false (c0 : Char) (l : List Char)
    (h : isLowerAlnum c0 = true) :
    collapseAux true (c0 :: l) = collapseAux false (c0 :: l) := by
  rw [collapseAux, collapseAux, if_pos h, if_pos h]

theorem splitCh_ne_nil (sep : Char) : ∀ l : List Char, splitCh sep l ≠ [] := by
  intro l
  induction l with
  | nil => simp [splitCh]
  | cons c rest ih =>
    rw [splitCh]
    by_cases hc : c = sep
    · rw [if_pos hc]; simp
    · rw [if_neg hc]
      cases h : splitCh sep rest with
      | nil => simp
      | cons t ts => simp

theorem splitCh_chars (sep : Char) : ∀ (l t : List Char),
    t ∈ splitCh sep l → ∀ c ∈ t, c ∈ l ∧ c ≠ sep := by
  intro l
  induction l with
  | nil =>
    intro t ht c hc
    simp [splitCh] at ht
    subst ht
    simp at hc
  | cons a rest ih =>
    intro t ht c hc
    rw [splitCh] at ht
    by_cases ha : a = sep
    · rw [if_pos ha] at ht
      rcases List.mem_cons.mp ht with h | h
      · subst h; simp at hc
      · have h2 := ih t h c hc
        exact ⟨List.mem_cons_of_mem a h2.1, h2.2⟩
    · rw [if_neg ha] at ht
      cases hsp : splitCh sep rest with
      | nil => exact absurd hsp (splitCh_ne_nil sep rest)
      | cons t0 ts0 =>
        rw [hsp] at ht
        rcases List.mem_cons.mp ht with h | h
        · subst h
          rcases List.mem_cons.mp hc with h2 | h2
          · subst h2; exact ⟨by simp, ha⟩
          · have h3 := ih t0 (by rw [hsp]; simp) c h2
            exact ⟨List.mem_cons_of_mem a h3.1, h3.2⟩
        · have h3 := ih t (by rw [hsp]; exact List.mem_cons_of_mem t0 h) c hc
          exact ⟨List.mem_cons_of_mem a h3.1, h3.2⟩

theorem splitCh_no_sep (sep : Char) : ∀ t : List Char,
    sep ∉ t → splitCh sep t = [t] := by
  intro t
  induction t with
  | nil => intro _; rfl
  | cons c t' ih =>
    intro h
    have hc : c ≠ sep := fun hh => h (hh ▸ List.mem_cons_self c t')
    rw [splitCh, if_neg hc, ih (fun hm => h (List.mem_cons_of_mem c hm))]

theorem splitCh_append_sep (sep : Char) : ∀ (t rest : List Char), sep ∉ t →
    splitCh sep (t ++ sep :: rest) = t :: splitCh sep rest := by
  intro t
  induction t with
  | nil => intro rest _; rw [List.nil_append, splitCh, if_pos rfl]
  | cons c t' ih =>
    intro rest h
    have hc : c ≠ sep := fun hh => h (hh ▸ List.mem_cons_self c t')
    rw [List.cons_append, splitCh, if_neg hc,
      ih rest (fun hm => h (List.mem_cons_of_mem c hm))]

theorem joinCh_cons_of_ne (sep : Char) (t : List Char)
    (ts : List (List Char)) (h : ts ≠ []) :
    joinCh sep (t :: ts) = t ++ sep :: joinCh sep ts := by
  cases ts with
  | nil => exact absurd rfl h
  | cons t' ts' => rfl

theorem joinCh_head_ne_nil (sep : Char) (t : List Char)
    (ts : List (List Char)) (ht : t ≠ []) : joinCh sep (t :: ts) ≠ [] := by
  cases ts with
  | nil => simpa [joinCh] using ht
  | cons t' ts' =>
    rw [joinCh_cons_of_ne sep t (t' :: ts') (by simp)]
    cases t with
    | nil => exact absurd rfl ht
    | cons c t'' => simp

theorem joinCh_chars (sep : Char) : ∀ (ts : List (List Char)) (c : Char),
    c ∈ joinCh sep ts → (∃ t ∈ ts, c ∈ t) ∨ c = sep := by
  intro ts
  induction ts with
  | nil => intro c hc; simp [joinCh] at hc
  | cons t ts' ih =>
    intro c hc
    cases ts' with
    | nil => exact Or.inl ⟨t, by simp, hc⟩
    | cons u us =>
      rw [joinCh_cons_of_ne _ _ _ (by simp)] at hc
      rcases List.mem_append.mp hc with h | h
      · exact Or.inl ⟨t, by simp, h⟩
      · rcases List.mem_cons.mp h with h2 | h2
        · exact Or.inr h2
        · rcases ih c h2 with ⟨t', ht', hct'⟩ | h3
          · exact Or.inl ⟨t', List.mem_cons_of_mem t ht', hct'⟩
          · exact Or.inr h3

theorem collapse_join : ∀ ts : List (List Char),
    (∀ t ∈ ts, t ≠ [] ∧ ∀ c ∈ t, isLowerAlnum c = true) →
    collapseNonAlnum (joinCh '_' ts) = joinCh ' ' ts := by
  intro ts
  induction ts with
  | nil => intro _; rfl
  | cons t ts' ih =>
    intro h
    obtain ⟨htn, hta⟩ := h t (by simp)
    cases ts' with
    | nil =>
      show collapseAux false t = t
      have h2 := collapseAux_append_alnum t [] false htn hta
      rw [List.append_nil] at h2
      rw [h2, show collapseAux false ([] : List Char) = [] from rfl,
        List.append_nil]
    | cons u us =>
      rw [joinCh_cons_of_ne '_' t (u :: us) (by simp),
        joinCh_cons_of_ne ' ' t (u :: us) (by simp)]
      show collapseAux false (t ++ '_' :: joinCh '_' (u :: us)) =
        t ++ ' ' :: joinCh ' ' (u :: us)
      rw [collapseAux_append_alnum t _ false htn hta]
      congr 1
      rw [collapseAux, if_neg (by decide), if_neg (by decide)]
      congr 1
      obtain ⟨hun, hua⟩ := h u (by simp)
      obtain ⟨c0, u', rfl⟩ : ∃ c0 u', u = c0 :: u' := by
        cases u with
        | nil => exact absurd rfl hun
        | cons c0 u' => exact ⟨c0, u', rfl⟩
      have hc0 : isLowerAlnum c0 = true := hua c0 (by simp)
      obtain ⟨l', hl'⟩ : ∃ l',
          joinCh '_' ((c0 :: u') :: us) = c0 :: l' := by
        cases us with
        | nil => exact ⟨u', rfl⟩
        | cons v vs => exact ⟨u' ++ '_' :: joinCh '_' (v :: vs), rfl⟩
      calc collapseAux true (joinCh '_' ((c0 :: u') :: us))
          = collapseAux false (joinCh '_' ((c0 :: u') :: us)) := by
            rw [hl', collapseAux_true_eq_false c0 l' hc0]
        _ = joinCh ' ' ((c0 :: u') :: us) :=
            ih (fun x hx => h x (List.mem_cons_of_mem t hx))

theorem split_join : ∀ ts : List (List Char),
    (∀ t ∈ ts, ' ' ∉ t) → ts ≠ [] →
    splitCh ' ' (joinCh ' ' ts) = ts := by
  intro ts
  induction ts with
  | nil => intro _ h; exact absurd rfl h
  | cons t ts' ih =>
    intro h _
    cases ts' with
    | nil => exact splitCh_no_sep ' ' t (h t (by simp))
    | cons u us =>
      rw [joinCh_cons_of_ne _ _ _ (by simp),
        splitCh_append_sep ' ' t _ (h t (by simp)),
        ih (fun x hx => h x (List.mem_cons_of_mem t hx)) (by simp)]

theorem normTokens_good (name : List Char) :
    ∀ t ∈ normTokens name,
      t ≠ [] ∧ t ∉ STOPWORDS ∧ ∀ c ∈ t, isLowerAlnum c = true := by
  intro t ht
  rw [normTokens, List.mem_filter] at ht
  obtain ⟨hmem, hpred⟩ := ht
  rw [decide_eq_true_eq] at hpred
  refine ⟨hpred.1, hpred.2, ?_⟩
  intro c hc
  have h2 := splitCh_chars ' ' _ t hmem c hc
  rcases collapseAux_chars _ false c h2.1 with h3 | h3
  · exact h3
  · exact absurd h3 h2.2

theorem normalizeName_fixed (ts : List (List Char))
    (hgood : ∀ t ∈ ts,
      t ≠ [] ∧ t ∉ STOPWORDS ∧ ∀ c ∈ t, isLowerAlnum c = true)
    (hne : ts ≠ []) :
    normalizeName (joinCh '_' ts) = joinCh '_' ts := by
  obtain ⟨t0, ts', rfl⟩ : ∃ t0 ts', ts = t0 :: ts' := by
    cases ts with
    | nil => exact absurd rfl hne
    | cons t0 ts' => exact ⟨t0, ts', rfl⟩
  have hjoin_ne : joinCh '_' (t0 :: ts') ≠ [] :=
    joinCh_head_ne_nil '_' t0 ts' (hgood t0 (by simp)).1
  have hnu : ∀ c ∈ joinCh '_' (t0 :: ts'), jsIsUpper c = false := by
    intro c hc
    rcases joinCh_chars '_' (t0 :: ts') c hc with ⟨t, ht, hct⟩ | h
    · exact isLowerAlnum_not_upper c ((hgood t ht).2.2 c hct)
    · rw [h]; decide
  rw [normalizeName_eq, if_neg hjoin_ne, normTokens,
    camelSplit_eq_self _ hnu, map_jsToLower_eq_self _ hnu,
    collapse_join (t0 :: ts') (fun t ht => ⟨(hgood t ht).1, (hgood t ht).2.2⟩),
    split_join (t0 :: ts')
      (fun t ht hsp => by
        have := (hgood t ht).2.2 ' ' hsp
        simp [isLowerAlnum, jsIsLower, jsIsDigit] at this)
      (by simp),
    List.filter_eq_self.mpr
      (fun t ht => by
        rw [decide_eq_true_eq]
        exact ⟨(hgood t ht).1, (hgood t ht).2.1⟩)]

/-- C4: `normalizeName` is idempotent - applying it to its own output
returns that output unchanged, for every input string. -/
theorem C4_normalize_idempotent (x : List Char) :
    normalizeName (normalizeName x) = normalizeName x := by
  by_cases hx : x = []
  · subst hx; rfl
  · rw [normalizeName_eq x, if_neg hx]
    by_cases hts : normTokens x = []
    · rw [hts]; rfl
    · exact normalizeName_fixed (normTokens x) (normTokens_good x) hts

/-! ### The matcher: synonym priority, threshold, and the worked example -/

theorem bestOf_fold_spec :
    ∀ (xs : List (List Char × ℚ)) (x : List Char × ℚ),
      xs.foldl (fun b y => if y.2 > b.2 then y else b) x ∈ x :: xs ∧
        ∀ y ∈ x :: xs,
          y.2 ≤ (xs.foldl (fun b y => if y.2 > b.2 then y else b) x).2 := by
  intro xs
  induction xs with
  | nil =>
    intro x
    refine ⟨by simp, ?_⟩
    intro y hy
    rcases List.mem_cons.mp hy with rfl | h
    · exact le_refl _
    · simp at h
  | cons z zs ih =>
    intro x
    rw [List.foldl_cons]
    by_cases hzx : z.2 > x.2
    · rw [if_pos hzx]
      obtain ⟨ihmem, ihle⟩ := ih z
      constructor
      · rcases List.mem_cons.mp ihmem with h | h
        · rw [h]; simp
        · exact List.mem_cons_of_mem x (List.mem_cons_of_mem z h)
      · intro y hy
        rcases List.mem_cons.mp hy with rfl | h
        · exact le_trans (le_of_lt hzx) (ihle z (List.mem_cons_self z zs))
        · exact ihle y h
    · rw [if_neg hzx]
      obtain ⟨ihmem, ihle⟩ := ih x
      constructor
      · rcases List.mem_cons.mp ihmem with h | h
        · rw [h]; simp
        · exact List.mem_cons_of_mem x (List.mem_cons_of_mem z h)
      · intro y hy
        rcases List.mem_cons.mp hy with rfl | h
        · exact ihle y (List.mem_cons_self y zs)
        · rcases List.mem_cons.mp h with rfl | h2
          · exact le_trans (le_of_not_lt hzx)
              (ihle x (List.mem_cons_self x zs))
          · exact ihle y (List.mem_cons_of_mem x h2)

theorem bestOf_some_spec (l : List (List Char × ℚ)) (b : List Char × ℚ)
    (h : bestOf l = some b) : b ∈ l ∧ ∀ y ∈ l, y.2 ≤ b.2 := by
  cases l with
  | nil => exact Option.noConfusion h
  | cons x xs =>
    obtain rfl := Option.some.inj h
    exact bestOf_fold_spec xs x

theorem scoreStep_eq (names : List (List Char)) (nz : List Char)
    (b : List Char × ℚ)
    (h : bestOf (names.map fun n => (n, calculateSimilarity nz n)) = some b) :
    scoreStep names nz = if b.2 ≥ 2 / 5 then some b.1 else none := by
  rw [scoreStep, h]

theorem scoreStep_spec (names : List (List Char)) (nz : List Char)
    (h1 : names ≠ []) :
    (scoreStep names nz = none ↔
      ∀ n ∈ names, calculateSimilarity nz n < 2 / 5) ∧
      ∀ m, scoreStep names nz = some m →
        m ∈ names ∧ 2 / 5 ≤ calculateSimilarity nz m ∧
          ∀ n ∈ names, calculateSimilarity nz n ≤ calculateSimilarity nz m := by
  obtain ⟨x, xs, rfl⟩ : ∃ x xs, names = x :: xs := by
    cases names with
    | nil => exact absurd rfl h1
    | cons x xs => exact ⟨x, xs, rfl⟩
  cases hbo : bestOf ((x :: xs).map fun n => (n, calculateSimilarity nz n)) with
  | none =>
    rw [List.map_cons, bestOf] at hbo
    exact Option.noConfusion hbo
  | some b =>
    obtain ⟨hmem, hle⟩ := bestOf_some_spec _ b hbo
    obtain ⟨nb, hnb, hbeq⟩ :
        ∃ n ∈ x :: xs, b = (n, calculateSimilarity nz n) := by
      obtain ⟨n, hn, hfn⟩ := List.mem_map.mp hmem
      exact ⟨n, hn, hfn.symm⟩
    have hall : ∀ n ∈ x :: xs, calculateSimilarity nz n ≤ b.2 := fun n hn =>
      hle _ (List.mem_map_of_mem _ hn)
    have hb2 : b.2 = calculateSimilarity nz nb := by rw [hbeq]
    rw [scoreStep_eq _ _ b hbo]
    constructor
    · constructor
      · intro hnone n hn
        by_cases hge : b.2 ≥ 2 / 5
        · rw [if_pos hge] at hnone
          exact Option.noConfusion hnone
        · exact lt_of_le_of_lt (hall n hn) (lt_of_not_ge hge)
      · intro h2
        have hng : ¬ b.2 ≥ 2 / 5 := by
          rw [hb2]
          exact not_le_of_lt (h2 nb hnb)
        rw [if_neg hng]
    · intro m hm
      by_cases hge : b.2 ≥ 2 / 5
      · rw [if_pos hge] at hm
        obtain rfl : b.1 = m := Option.some.inj hm
        have h1m : b.1 = nb := by rw [hbeq]
        rw [h1m]
        refine ⟨hnb, ?_, ?_⟩
        · rw [← hb2]
          exact hge
        · intro n hn
          rw [← hb2]
          exact hall n hn
      · rw [if_neg hge] at hm
        exact Option.noConfusion hm

theorem findBestSymbol_unfold (names : List (List Char)) (label : List Char)
    (h1 : names ≠ []) (h2 : normalizeName label ≠ [])
    (h3 : (normalizeName label).length ≤ 500)
    (h4 : normalizeName label ∉ names) :
    findBestSymbol names label =
      match synonymLookup (normalizeName label) with
      | some syn =>
        if syn ∈ names then some syn
        else scoreStep names (normalizeName label)
      | none => scoreStep names (normalizeName label) := by
  rw [findBestSymbol, if_neg h1]
  show (if normalizeName label = [] then none
    else if (normalizeName label).length > 500 then none
    else if normalizeName label ∈ names then some (normalizeName label)
    else
      match synonymLookup (normalizeName label) with
      | some syn =>
        if syn ∈ names then some syn
        else scoreStep names (normalizeName label)
      | none => scoreStep names (normalizeName label)) = _
  rw [if_neg h2, if_neg (by omega), if_neg h4]

theorem synonymLookup_key_ok (k v : List Char)
    (h : synonymLookup k = some v) : k ≠ [] ∧ k.length ≤ 500 := by
  rw [synonymLookup] at h
  cases hf : SYNONYM_MAP.find? (fun p => decide (p.1 = k)) with
  | none =>
    rw [hf] at h
    exact Option.noConfusion h
  | some p =>
    have hmem := List.mem_of_find?_eq_some hf
    have hkey : p.1 = k := by
      have hp := List.find?_some hf
      rwa [decide_eq_true_eq] at hp
    subst hkey
    have hall : ∀ q ∈ SYNONYM_MAP, q.1 ≠ [] ∧ q.1.length ≤ 500 := by decide
    exact hall p hmem

theorem calcSim_eval (s1 s2 : List Char) (d hits t1l m : Nat)
    (hd : levenshteinDistance s1 s2 = d)
    (hm : max s1.length s2.length = m)
    (hh : ((tokenize s1).filter (fun t => decide (t ∈ tokenize s2))).length =
      hits)
    (ht : (tokenize s1).length = t1l) :
    calculateSimilarity s1 s2 =
      65 / 100 * (if t1l = 0 then (0 : ℚ) else (hits : ℚ) / t1l) +
        35 / 100 * (if m = 0 then (1 : ℚ) else 1 - (d : ℚ) / m) := by
  simp only [calculateSimilarity]
  rw [hd, hm, hh, ht]

/-- C5: whenever a label's normalized form is not itself a catalog name but
is a key of the synonym map whose target is in the catalog, `findBestSymbol`
returns that target - the synonym branch returns before any score is
computed, so the result is independent of the blended scores. -/
theorem C5_synonym_priority (names : List (List Char)) (label syn : List Char)
    (h1 : normalizeName label ∉ names)
    (h2 : synonymLookup (normalizeName label) = some syn)
    (h3 : syn ∈ names) :
    findBestSymbol names label = some syn := by
  obtain ⟨hk1, hk2⟩ := synonymLookup_key_ok _ _ h2
  rw [findBestSymbol_unfold names label (List.ne_nil_of_mem h3) hk1 hk2 h1,
    h2]
  show (if syn ∈ names then some syn
    else scoreStep names (normalizeName label)) = some syn
  rw [if_pos h3]

theorem C5_synonym_priority_witness :
    findBestSymbol ["vessel".data, "drum_x".data] "drum".data =
        some "vessel".data ∧
      calculateSimilarity (normalizeName "drum".data) "vessel".data <
        calculateSimilarity (normalizeName "drum".data) "drum_x".data := by
  constructor
  · exact C5_synonym_priority ["vessel".data, "drum_x".data] "drum".data
      "vessel".data (by decide) (by decide) (by decide)
  · rw [show normalizeName "drum".data = "drum".data from by decide,
      calcSim_eval "drum".data "vessel".data 6 0 1 6
        (by decide) (by decide) (by decide) (by decide),
      calcSim_eval "drum".data "drum_x".data 2 1 1 6
        (by decide) (by decide) (by decide) (by decide)]
    norm_num

/-- C6: for a label that reaches the scoring step (non-empty catalog,
non-empty normalized form of at most 500 characters, no exact match, no
synonym hit), the result is none exactly when every catalog name scores
strictly below `0.4`, and any returned name is a catalog name attaining the
maximal blended score, that score being at least `0.4` - so a top score of
exactly `0.4` is accepted. -/
theorem C6_threshold_boundary (names : List (List Char)) (label : List Char)
    (h1 : names ≠ []) (h2 : normalizeName label ≠ [])
    (h3 : (normalizeName label).length ≤ 500)
    (h4 : normalizeName label ∉ names)
    (h5 : ∀ syn, synonymLookup (normalizeName label) = some syn →
      syn ∉ names) :
    (findBestSymbol names label = none ↔
      ∀ n ∈ names,
        calculateSimilarity (normalizeName label) n < 2 / 5) ∧
      ∀ m, findBestSymbol names label = some m →
        m ∈ names ∧
          2 / 5 ≤ calculateSimilarity (normalizeName label) m ∧
          ∀ n ∈ names,
            calculateSimilarity (normalizeName label) n ≤
              calculateSimilarity (normalizeName label) m := by
  have hss : findBestSymbol names label =
      scoreStep names (normalizeName label) := by
    rw [findBestSymbol_unfold names label h1 h2 h3 h4]
    cases hsyn : synonymLookup (normalizeName label) with
    | none => rfl
    | some syn =>
      show (if syn ∈ names then some syn
        else scoreStep names (normalizeName label)) =
        scoreStep names (normalizeName label)
      rw [if_neg (h5 syn hsyn)]
  rw [hss]
  exact scoreStep_spec names (normalizeName label) h1

theorem C6_threshold_boundary_witness :
    (findBestSymbol ["pump".data] "pump x".data = none ↔
      ∀ n ∈ ["pump".data],
        calculateSimilarity (normalizeName "pump x".data) n < 2 / 5) ∧
      ∀ m, findBestSymbol ["pump".data] "pump x".data = some m →
        m ∈ ["pump".data] ∧
          2 / 5 ≤ calculateSimilarity (normalizeName "pump x".data) m ∧
          ∀ n ∈ ["pump".data],
            calculateSimilarity (normalizeName "pump x".data) n ≤
              calculateSimilarity (normalizeName "pump x".data) m :=
  C6_threshold_boundary ["pump".data] "pump x".data (by decide) (by decide)
    (by decide) (by decide)
    (fun syn h => by
      rw [show synonymLookup (normalizeName "pump x".data) = none
        from by decide] at h
      exact Option.noConfusion h)

theorem fbs_unmatched_label_none :
    findBestSymbol ["valve".data, "pump".data, "sensor".data]
      "ball_valve_A1".data = none := by
  have hnorm : normalizeName "ball_valve_A1".data = "ball_valve_a1".data := by
    decide
  rw [findBestSymbol_unfold _ _ (by decide) (by decide) (by decide)
    (by decide), hnorm,
    show synonymLookup "ball_valve_a1".data = none from by decide,
    (scoreStep_spec _ _ (by decide)).1]
  intro n hn
  simp only [List.mem_cons, List.not_mem_nil, or_false] at hn
  rcases hn with rfl | rfl | rfl
  · rw [calcSim_eval _ _ 8 1 3 13
      (by decide) (by decide) (by decide) (by decide)]
    norm_num
  · rw [calcSim_eval _ _ 13 0 3 13
      (by decide) (by decide) (by decide) (by decide)]
    norm_num
  · rw [calcSim_eval _ _ 13 0 3 13
      (by decide) (by decide) (by decide) (by decide)]
    norm_num

/-- C1 counterexample: with catalog `["valve","pump","sensor"]`, the label
`"ball_valve_A1"` does not resolve at all - `findBestSymbol` returns none,
because the normalized form `"ball_valve_a1"` keeps the `a1` token, missing
both the exact match and the `ball_valve` synonym key, and its best blended
score (against `"valve"`) is below the threshold. -/
theorem C1_ball_valve_cex :
    findBestSymbol ["valve".data, "pump".data, "sensor".data]
      "ball_valve_A1".data = none := fbs_unmatched_label_none

/-- C1 (amended): with catalog `["valve","pump","sensor"]`, `findBestSymbol`
applied to `"ball_valve_A1"` returns none: the label normalizes to
`"ball_valve_a1"`, which is not a synonym-map key, and its best blended
score, `137/390` against `"valve"`, is below the acceptance threshold
`0.4`. -/
theorem C1_ball_valve_amended :
    findBestSymbol ["valve".data, "pump".data, "sensor".data]
        "ball_valve_A1".data = none ∧
      normalizeName "ball_valve_A1".data = "ball_valve_a1".data ∧
      synonymLookup "ball_valve_a1".data = none ∧
      calculateSimilarity "ball_valve_a1".data "valve".data = 137 / 390 ∧
      (137 / 390 : ℚ) < 2 / 5 := by
  refine ⟨fbs_unmatched_label_none, by decide, by decide, ?_, by norm_num⟩
  rw [calcSim_eval _ _ 8 1 3 13
    (by decide) (by decide) (by decide) (by decide)]
  norm_num

theorem lookupPos_cons (a : NodeId) (b : Pt) (st : List (NodeId × Pt))
    (n : NodeId) :
    lookupPos ((a, b) :: st) n = if a = n then some b else lookupPos st n := by
  by_cases h : a = n <;> simp [lookupPos, List.find?, h]

/-- C2: every edge whose source or target does not reference the id of a
supplied node is excluded from the rendered edge set (no error is raised -
the admission step, modelled from the spec, drops it silently); in
particular, nodes `["A","B"]` with edges `[["A","C"]]` yield an empty
rendered edge set. -/
theorem C2_edge_filtering :
    (∀ (nodes : List NodeInput) (edges : List EdgeInput)
        (idx : Nat) (s t : NodeId),
        (idx, s, t) ∈ renderedEdges nodes edges →
        s ∈ nodes.filterMap nodeIdOf ∧ t ∈ nodes.filterMap nodeIdOf) ∧
      renderedEdges [.nstr "A".data, .nstr "B".data]
        [.pair "A".data "C".data] = [] := by
  constructor
  · intro nodes edges idx s t h
    rw [renderedEdges, admitEdges] at h
    simpa using (List.mem_filter.mp h).2
  · decide

theorem C2_edge_filtering_witness :
    "A".data ∈ [NodeInput.nstr "A".data,
        NodeInput.nstr "B".data].filterMap nodeIdOf ∧
      "B".data ∈ [NodeInput.nstr "A".data,
        NodeInput.nstr "B".data].filterMap nodeIdOf :=
  C2_edge_filtering.1 [.nstr "A".data, .nstr "B".data]
    [.pair "A".data "B".data] 0 "A".data "B".data (by decide)

/-- C3 counterexample: starting from the unloaded initial state, two
concurrent `loadSymbols` calls - the second entering before the first call's
fetch has resolved, hence before any assignment to `SYMBOLS_LOADED` - issue
two network fetches, not one. -/
theorem C3_concurrent_double_fetch :
    concurrentLoadFetches initialCatalog = 2 ∧
      concurrentLoadFetches initialCatalog ≠ 1 := by
  decide

/-- C3 (amended): two concurrent `loadSymbols` calls whose second starts
before the first call's fetch resolves issue two fetches, because the guard
flag is assigned only after the awaited fetch; the guard only short-circuits
calls that start after a load has completed successfully, and those issue no
fetch at all. -/
theorem C3_guard_only_after_completion :
    concurrentLoadFetches initialCatalog = 2 ∧
      (∀ (st : CatalogState) (o : FetchOutcome),
        (loadSymbols st o).loaded = true →
        loadSymbolsIssuesFetch (loadSymbols st o) = false) ∧
      ∀ st : CatalogState, st.loaded = true → concurrentLoadFetches st = 0 := by
  refine ⟨by decide, ?_, ?_⟩
  · intro st o h
    simp [loadSymbolsIssuesFetch, h]
  · intro st h
    simp [concurrentLoadFetches, loadSymbolsIssuesFetch, h]

theorem C3_guard_only_after_completion_witness :
    loadSymbolsIssuesFetch
        (loadSymbols (CatalogState.mk [] [] true) FetchOutcome.netError) =
        false ∧
      concurrentLoadFetches (CatalogState.mk [] [] true) = 0 :=
  ⟨C3_guard_only_after_completion.2.1 (CatalogState.mk [] [] true)
      FetchOutcome.netError (by decide),
    C3_guard_only_after_completion.2.2 (CatalogState.mk [] [] true) rfl⟩

/-- C8: on any failed fetch outcome (thrown error, non-ok response, or a
payload without a truthy `success` flag or `symbols` list) `loadSymbols`
leaves the whole module state unchanged; the loaded flag is true afterwards
exactly when it already was or the outcome was a success; and after a failure
a later call still issues a fetch exactly when the state is unloaded. -/
theorem C8_failure_leaves_state (st : CatalogState) (o : FetchOutcome) :
    (outcomeSuccess o = none → loadSymbols st o = st) ∧
      ((loadSymbols st o).loaded = true ↔
        st.loaded = true ∨ outcomeSuccess o ≠ none) ∧
      (outcomeSuccess o = none →
        loadSymbolsIssuesFetch (loadSymbols st o) = !st.loaded) := by
  by_cases hl : st.loaded <;>
    cases ho : outcomeSuccess o <;>
      simp [loadSymbols, loadSymbolsIssuesFetch, hl, ho]

theorem C8_failure_leaves_state_witness :
    loadSymbols initialCatalog FetchOutcome.httpError = initialCatalog ∧
      loadSymbolsIssuesFetch
        (loadSymbols initialCatalog FetchOutcome.httpError) = true :=
  ⟨(C8_failure_leaves_state initialCatalog FetchOutcome.httpError).1 rfl,
    (C8_failure_leaves_state initialCatalog FetchOutcome.httpError).2.2 rfl⟩

/-- C9: a drag released at `(123,77)` snaps to `(120,80)`; after a
`dragfree` on node `n` the persisted store holds the snapped position of
`n`'s release point; a later construction with no explicit position resolves
the node to exactly the persisted pair; and in general every snapped
coordinate is the nearest multiple of the grid size 40 (ties rounded up),
hence within 20 of the released coordinate. -/
theorem C9_position_roundtrip :
    snapPos ((123 : ℚ), (77 : ℚ)) = ((120 : ℚ), (80 : ℚ)) ∧
      (∀ (st : List (NodeId × Pt)) (n : NodeId) (p : Pt),
        lookupPos st n = some p →
        lookupPos (onDragFree st n) n = some (snapPos p)) ∧
      (∀ (pm : List (NodeId × Pt)) (i : NodeId),
        buildNodeElements pm [.nstr i] = [(i, lookupPos pm i)]) ∧
      ∀ q : ℚ, ∃ k : ℤ, snapCoord q = GRID_SIZE * k ∧ |snapCoord q - q| ≤ 20 := by
  refine ⟨?_, ?_, ?_, ?_⟩
  · have h1 : ((123 : ℚ) / 40 + 1 / 2) = 143 / 40 := by norm_num
    have h2 : ((77 : ℚ) / 40 + 1 / 2) = 97 / 40 := by norm_num
    have e1 : ⌊(143 : ℚ) / 40⌋ = 3 := by
      rw [Int.floor_eq_iff]
      norm_num
    have e2 : ⌊(97 : ℚ) / 40⌋ = 2 := by
      rw [Int.floor_eq_iff]
      norm_num
    simp only [snapPos, snapCoord, jsRound, GRID_SIZE, h1, h2, e1, e2]
    norm_num
  · intro st n
    induction st with
    | nil => intro p hp; simp [lookupPos] at hp
    | cons e st ih =>
      intro p hp
      obtain ⟨a, b⟩ := e
      rw [lookupPos_cons] at hp
      by_cases he : a = n
      · rw [if_pos he] at hp
        obtain rfl : b = p := Option.some.inj hp
        subst he
        simp [onDragFree, lookupPos_cons]
      · rw [if_neg he] at hp
        simpa [onDragFree, lookupPos_cons, he] using ih p hp
  · intro pm i
    simp [buildNodeElements, nodeIdOf, nodePosOf]
  · intro q
    refine ⟨jsRound (q / 40), by rw [snapCoord, GRID_SIZE, mul_comm], ?_⟩
    have hle := Int.floor_le (q / 40 + 1 / 2)
    have hlt := Int.sub_one_lt_floor (q / 40 + 1 / 2)
    have hq : q = 40 * (q / 40) := by ring
    rw [abs_le]
    constructor
    · have : (jsRound (q / 40) : ℚ) > q / 40 + 1 / 2 - 1 := hlt
      rw [snapCoord, GRID_SIZE]
      nlinarith
    · have : (jsRound (q / 40) : ℚ) ≤ q / 40 + 1 / 2 := hle
      rw [snapCoord, GRID_SIZE]
      nlinarith

theorem C9_position_roundtrip_witness :
    lookupPos
        (onDragFree [("A".data, (((123 : ℚ), (77 : ℚ)) : Pt))] "A".data)
        "A".data = some (snapPos ((123 : ℚ), (77 : ℚ))) :=
  C9_position_roundtrip.2.1 [("A".data, ((123 : ℚ), (77 : ℚ)))] "A".data
    ((123 : ℚ), (77 : ℚ)) rfl

/-- C10: the layout choice reads only whether the persisted store is
non-empty - whenever it holds at least one entry, even for an id absent from
the supplied nodes, the preset (no-op) layout is chosen - and a supplied node
with neither an explicit nor a stored position contributes an element with no
position, which the preset layout leaves unplaced. -/
theorem C10_layout_depends_on_store (pm : List (NodeId × Pt))
    (nodes : List NodeInput) (h : pm ≠ []) :
    layoutChoice pm = LayoutChoice.preset ∧
      ∀ n ∈ nodes, ∀ i, nodeIdOf n = some i → nodePosOf n = none →
        lookupPos pm i = none →
        (i, (none : Option Pt)) ∈ buildNodeElements pm nodes := by
  constructor
  · simp [layoutChoice, h]
  · intro n hn i hi hp hl
    rw [buildNodeElements, List.mem_filterMap]
    exact ⟨n, hn, by simp [hi, hp, hl]⟩

theorem C10_layout_depends_on_store_witness :
    layoutChoice [("Z".data, (((0 : ℚ), (0 : ℚ)) : Pt))] =
        LayoutChoice.preset ∧
      ("A".data, (none : Option Pt)) ∈
        buildNodeElements [("Z".data, ((0 : ℚ), (0 : ℚ)))]
          [NodeInput.nstr "A".data] := by
  have h := C10_layout_depends_on_store
    [("Z".data, ((0 : ℚ), (0 : ℚ)))] [NodeInput.nstr "A".data]
    (by simp)
  exact ⟨h.1, h.2 (NodeInput.nstr "A".data) (by simp) "A".data rfl rfl rfl⟩

end AiPid
